import Mathlib

/-!
Verification of the dukascopy-downloader pipeline.

This file gives a shallow embedding of the core data path of the
repository — the LZMA-framing decoder, the binary tick parser
(`src/core/processor.py`), the per-hour fetch retry loop
(`src/core/fetch.py`), the tick→candle aggregation and the candle
cross-day merger (`src/core/csv_dumper.py`, `src/core/aggregator.py`,
`src/core/candle.py`), the timestamp formatter, and the symbol
validation of `src/core/service.py` — and proves, or refutes, the
specified properties of those components.

Modelling conventions:
* Python ints are `ℤ`/`ℕ`; Python floats are `ℚ` (every IEEE binary32
  value is an exact rational, and the claims under study concern the
  symbolic arithmetic the code performs, not binary64 rounding of
  intermediates).
* Python `round` is round-half-to-even (`pyRound` below); `round(x, n)`
  is `pyRound` scaled by `10^n`.
* Bytes are `ℕ` (< 256 where it matters); strings are `List Char` when
  they must be computed on, `String` otherwise.
* The LZMA library is abstracted by `LZChunk`: a compressed buffer is a
  list of streams, each either decodable (with its payload and its
  end-of-stream flag) or malformed; `decompress_lzma` reproduces the
  control flow of `processor.decompress_lzma` over that abstraction.
* A calendar date is its epoch-day number `ℤ`; an absolute instant is
  its epoch milliseconds `ℤ`.  `PyDateTime` is the component-level view
  used for `strftime` formatting.
-/

namespace Dukascopy

/-! ## Settings (`src/config/settings.py`) -/

/-- `DOWNLOAD_ATTEMPTS = 10` from `src/config/settings.py`. -/
def DOWNLOAD_ATTEMPTS : ℕ := 10

/-- `DEFAULT_POINT_VALUE = 100000` from `src/config/settings.py`. -/
def DEFAULT_POINT_VALUE : ℕ := 100000

/-- `VOLUME_MULTIPLIER = 1_000_000` from `src/config/settings.py`. -/
def VOLUME_MULTIPLIER : ℕ := 1000000

/-- ASCII lowercasing of one character; models Python `str.lower()` on
the ASCII symbol names that occur here. -/
def lowerChar (c : Char) : Char :=
  if 'A' ≤ c ∧ c ≤ 'Z' then Char.ofNat (c.toNat + 32) else c

/-- `symbol.lower()` at the character-list level. -/
def symLower (s : String) : List Char := s.data.map lowerChar

/-- The `SPECIAL_POINT_SYMBOLS` dict of `src/config/settings.py`. -/
def SPECIAL_POINT_SYMBOLS : List (List Char × ℕ) :=
  [("usdrub".data, 1000), ("xagusd".data, 1000), ("xauusd".data, 1000),
   ("xaugbp".data, 1000), ("xaueur".data, 1000), ("xageur".data, 1000),
   ("xaggbp".data, 1000)]

/-- `SPECIAL_POINT_SYMBOLS.get(symbol.lower(), DEFAULT_POINT_VALUE)` from
`normalize_hour` in `src/core/processor.py`. -/
def pointValue (symbol : String) : ℕ :=
  ((SPECIAL_POINT_SYMBOLS.lookup (symLower symbol)).getD DEFAULT_POINT_VALUE)

/-! ## Python `round` (round-half-to-even) -/

/-- Python's built-in `round` to an integer: round half to even. -/
def pyRound (q : ℚ) : ℤ :=
  let f := ⌊q⌋
  let r := q - f
  if r < 1/2 then f
  else if 1/2 < r then f + 1
  else if f % 2 = 0 then f else f + 1

/-- Python `round(x, 5)`: round half to even at 5 decimal places, as used
by `Candle.__init__` in `src/core/candle.py`. -/
def round5 (q : ℚ) : ℚ := (pyRound (q * 100000) : ℚ) / 100000

/-- Python `round(x, 2)`: round half to even at 2 decimal places, as used
by `CandleMerger._merge` in `src/core/aggregator.py`. -/
def round2 (q : ℚ) : ℚ := (pyRound (q * 100) : ℚ) / 100

/-! ## Codec (`src/core/processor.py`) -/

/-- Abstraction of one LZMA stream inside a `.bi5` buffer: either it
decodes (to `payload`, with `eof` recording whether the decoder saw the
end-of-stream marker) or it is malformed. -/
inductive LZChunk where
  | good (payload : List ℕ) (eof : Bool)
  | bad
deriving DecidableEq

/-- The `while True` loop of `decompress_lzma` in `src/core/processor.py`:
decode a stream; on a decode error, fail if nothing was decoded yet and
otherwise return what was; on success continue on `unused_data`, failing
if a stream ended without its end-of-stream marker while data remains. -/
def decompress_lzma_loop : List LZChunk → List (List ℕ) → Except Unit (List ℕ)
  | [], results => .ok results.reverse.flatten
  | .bad :: _, results =>
      if results.isEmpty then .error () else .ok results.reverse.flatten
  | .good payload eof :: rest, results =>
      if rest.isEmpty then .ok ((payload :: results).reverse.flatten)
      else if eof then decompress_lzma_loop rest (payload :: results)
      else .error ()

/-- `decompress_lzma` of `src/core/processor.py` (lines 14–38): empty
input yields empty bytes, otherwise run the multi-stream loop. -/
def decompress_lzma (data : List LZChunk) : Except Unit (List ℕ) :=
  if data.isEmpty then .ok [] else decompress_lzma_loop data []

/-- Big-endian 32-bit word from four bytes (`struct.unpack('!IIIff', ...)`
for the `I` fields). -/
def be32 (b0 b1 b2 b3 : ℕ) : ℕ := ((b0 * 256 + b1) * 256 + b2) * 256 + b3

/-- Exact rational value of an IEEE-754 binary32 bit pattern (the `f`
fields of `struct.unpack('!IIIff', ...)`).  Non-finite patterns
(exponent 255) are mapped to 0 and excluded by hypothesis where used. -/
def f32val (bits : ℕ) : ℚ :=
  let sign : ℚ := if bits / 2 ^ 31 % 2 = 1 then -1 else 1
  let expo : ℕ := bits / 2 ^ 23 % 2 ^ 8
  let mant : ℕ := bits % 2 ^ 23
  if expo = 0 then sign * (mant : ℚ) / 2 ^ 149
  else if expo = 255 then 0
  else sign * ((2 ^ 23 + mant : ℕ) : ℚ) * 2 ^ expo / 2 ^ 150

/-- One raw 20-byte tick record as unpacked by `tokenize` in
`src/core/processor.py`: `!IIIff` = time offset ms, ask raw, bid raw,
ask volume, bid volume. -/
structure RawTick where
  timeMs : ℕ
  askRaw : ℕ
  bidRaw : ℕ
  askVol : ℚ
  bidVol : ℚ
deriving DecidableEq

/-- Unpack the 20-byte record at index `i` of `buffer`
(`struct.unpack('!IIIff', buffer[i*20:(i+1)*20])`). -/
def parseTickAt (buffer : List ℕ) (i : ℕ) : RawTick :=
  let b := fun j => buffer.getD (i * 20 + j) 0
  { timeMs := be32 (b 0) (b 1) (b 2) (b 3)
    askRaw := be32 (b 4) (b 5) (b 6) (b 7)
    bidRaw := be32 (b 8) (b 9) (b 10) (b 11)
    askVol := f32val (be32 (b 12) (b 13) (b 14) (b 15))
    bidVol := f32val (be32 (b 16) (b 17) (b 18) (b 19)) }

/-- `tokenize` of `src/core/processor.py` (lines 41–58): parse
`len(buffer) // 20` records, discarding any trailing remainder. -/
def tokenize (buffer : List ℕ) : List RawTick :=
  (List.range (buffer.length / 20)).map (parseTickAt buffer)

/-- A normalized tick as produced by `normalize_hour`:
`(datetime, ask, bid, ask_volume, bid_volume)`, with the instant as
epoch milliseconds. -/
structure NormTick where
  tsMs : ℤ
  ask : ℚ
  bid : ℚ
  askVolume : ℤ
  bidVolume : ℤ
deriving DecidableEq

/-- `normalize_hour` of `src/core/processor.py` (lines 61–80): the
instant is `datetime(day, hour) + timedelta(milliseconds=time_ms)`
(offset from the start of the HOUR), prices are `raw / point`, and
volumes are `round(vol * VOLUME_MULTIPLIER)`.  `day` is the date's
epoch-day number. -/
def normalize_hour (symbol : String) (day : ℤ) (hour : ℕ) (ticks : List RawTick) :
    List NormTick :=
  let point := pointValue symbol
  let hourStartMs : ℤ := (day * 86400 + hour * 3600) * 1000
  ticks.map fun t =>
    { tsMs := hourStartMs + t.timeMs
      ask := (t.askRaw : ℚ) / point
      bid := (t.bidRaw : ℚ) / point
      askVolume := pyRound (t.askVol * VOLUME_MULTIPLIER)
      bidVolume := pyRound (t.bidVol * VOLUME_MULTIPLIER) }

/-- Stable insertion into a ts-sorted list (helper for `sortTicks`). -/
def insTs (t : NormTick) : List NormTick → List NormTick
  | [] => [t]
  | u :: us => if u.tsMs < t.tsMs then u :: insTs t us else t :: u :: us

/-- `all_ticks.sort(key=lambda t: t[0])`: Python's stable sort by
timestamp, modelled as (stable) insertion sort. -/
def sortTicks (l : List NormTick) : List NormTick := l.foldr insTs []

/-- The per-hour body of `decompress` in `src/core/processor.py`
(lines 83–112): skip empty data; decompress, tokenize and normalize; a
raised error for this hour is swallowed (`except Exception: pass`). -/
def processHour (symbol : String) (day : ℤ) (hour : ℕ) (chunks : List LZChunk) :
    List NormTick :=
  if chunks.isEmpty then []
  else
    match decompress_lzma chunks with
    | .error _ => []
    | .ok raw =>
        if raw.isEmpty then []
        else normalize_hour symbol day hour (tokenize raw)

/-- `decompress` of `src/core/processor.py`: process every
`(hour, compressed_bytes)` pair and sort the combined ticks
chronologically.  Total — no exception escapes it. -/
def decompress (symbol : String) (day : ℤ) (hourly : List (ℕ × List LZChunk)) :
    List NormTick :=
  sortTicks ((hourly.map fun p => processHour symbol day p.1 p.2).flatten)

/-! ## Fetcher (`src/core/fetch.py`) -/

/-- Outcome of one attempt of the retry loop in `download_hour`:
an HTTP 200 with a body, a 404, some other HTTP status, a transport
timeout, or a client/OS error carrying its `str(e)` message. -/
inductive Attempt where
  | ok (data : List ℕ)
  | notFound
  | httpStatus (code : ℕ)
  | timeout (msg : Unit)
  | clientError (msg : List Char)
deriving DecidableEq

/-- Decimal digit character. -/
def digitChar (d : ℕ) : Char := Char.ofNat (48 + d)

/-- Fueled decimal digits (kernel-reducible `Nat.repr`). -/
def natDigitsAux : ℕ → ℕ → List Char
  | 0, _ => []
  | fuel + 1, n =>
      if n < 10 then [digitChar n]
      else natDigitsAux fuel (n / 10) ++ [digitChar (n % 10)]

/-- Decimal representation of a natural number. -/
def natRepr (n : ℕ) : List Char := natDigitsAux (n + 1) n

/-- The `last_error` string recorded by `download_hour` for a failed
attempt: `f"HTTP {resp.status}"`, `"timeout"`, or `str(e)`. -/
def attemptErr : Attempt → List Char
  | .httpStatus code => "HTTP ".data ++ natRepr code
  | .timeout _ => "timeout".data
  | .clientError m => m
  | .ok _ => []
  | .notFound => []

/-- Whether an attempt terminates the retry loop (200 or 404). -/
def attemptDone : Attempt → Bool
  | .ok _ => true
  | .notFound => true
  | _ => false

/-- Does `pat` lead `s`? (list prefix test). -/
def leadsWith : List Char → List Char → Bool
  | [], _ => true
  | _ :: _, [] => false
  | a :: as, b :: bs => a = b && leadsWith as bs

/-- Python's `pat in s` substring test. -/
def hasSub (pat : List Char) : List Char → Bool
  | [] => pat.isEmpty
  | c :: rest => leadsWith pat (c :: rest) || hasSub pat rest

/-- `"503" in last_error`. -/
def contains503 (s : List Char) : Bool := hasSub "503".data s

/-- The retry loop of `download_hour` in `src/core/fetch.py`
(lines 35–85), given the outcome of each successive attempt: a 200
returns its bytes, a 404 returns empty bytes, every other outcome
records `last_error` and retries.  After exhaustion, raise `BackoffError`
when the recorded `last_error` contains `"503"`, else return empty
bytes (the skip is logged). -/
def download_hour_loop (hour : ℕ) : List Attempt → Option (List Char) →
    Except Unit (ℕ × List ℕ)
  | [], lastError =>
      match lastError with
      | some e => if contains503 e then .error () else .ok (hour, [])
      | none => .ok (hour, [])
  | a :: rest, _ =>
      match a with
      | .ok data => .ok (hour, data)
      | .notFound => .ok (hour, [])
      | other => download_hour_loop hour rest (some (attemptErr other))

/-- `download_hour`, with `attempts` listing the outcome of each of the
`DOWNLOAD_ATTEMPTS` requests the loop would issue.  `.error ()` is the
raised `BackoffError`. -/
def download_hour (hour : ℕ) (attempts : List Attempt) : Except Unit (ℕ × List ℕ) :=
  download_hour_loop hour attempts none

/-! ## Orchestrator day work item (`src/core/service.py`) -/

/-- The `completed_list` object of `DownloaderService._process_ticks`:
a plain Python list (`completed_list = []`, non-resume runs) or the set
returned by `load_state` (`completed_list = load_state(...)` when
`resume` is enabled — `utils/resume.py` returns `set()` or a set
comprehension). -/
inductive CompletedStore where
  | pylist (days : List ℤ)
  | pyset (days : List ℤ)
deriving DecidableEq

/-- `completed_list.append(day)`: succeeds on a list; on a set it raises
`AttributeError` (a Python set has no `append` method). -/
def store_append : CompletedStore → ℤ → Except Unit CompletedStore
  | .pylist ds, d => .ok (.pylist (ds ++ [d]))
  | .pyset _, _ => .error ()

/-- `completed_list = []; if self.config.resume: completed_list =
load_state(...)` (`src/core/service.py` lines 214–217): a plain empty
list without resume, the loaded set with resume. -/
def initial_completed (resume : Bool) (loaded : List ℤ) : CompletedStore :=
  if resume then .pyset loaded else .pylist []

/-- The body of `do_work` in `DownloaderService._process_ticks`
(`src/core/service.py` lines 192–222) after the fetch, returning
(success flag, `completed_list` after the call, ticks handed to the
dumper).  On a successful fetch the day's ticks are decompressed and
written (`csv_dumper.append` runs first), then
`completed_list.append(day)` is attempted: it succeeds on the plain
list of a non-resume run, but raises `AttributeError` on the set that
`load_state` returns in a resume run; that exception — like any other —
is caught by the generic `except Exception` handler (line 220), which
logs it and returns `False`, leaving the store unchanged.  A
`BackoffError` from the fetch returns `False` before anything is
written. -/
def do_work (symbol : String) (day : ℤ) (completed : CompletedStore)
    (fetched : Except Unit (List (ℕ × List LZChunk))) :
    Bool × CompletedStore × List NormTick :=
  match fetched with
  | .error _ => (false, completed, [])
  | .ok raw =>
      match store_append completed day with
      | .ok completed2 => (true, completed2, decompress symbol day raw)
      | .error _ => (false, completed, decompress symbol day raw)

/-! ## Symbol validation (`src/core/service.py`) -/

/-- Is `c` one of `A`–`Z`, `0`–`9`? -/
def isAZ09 (c : Char) : Bool := ('A' ≤ c && c ≤ 'Z') || ('0' ≤ c && c ≤ '9')

/-- Python `re.match(r'^[A-Z0-9]+$', s)` as a predicate: `[A-Z0-9]+`
must consume the whole string, except that `$` also matches just before
one newline at the very end of the string. -/
def re_match_symbol (s : String) : Bool :=
  let cs := s.data
  let core := if cs.getLastD ' ' = '\n' then cs.dropLast else cs
  !core.isEmpty && core.all isAZ09

/-- `DownloaderService._validate_symbols` (`src/core/service.py`
lines 68–72): raise `ValueError` on the first symbol that does not match
`^[A-Z0-9]+$`. -/
def validate_symbols : List String → Except String Unit
  | [] => .ok ()
  | s :: rest => if re_match_symbol s then validate_symbols rest else .error s

/-! ## Datetime components and `strftime` (`src/core/csv_dumper.py`) -/

/-- Component view of a Python `datetime` (as used for formatting). -/
structure PyDateTime where
  year : ℕ
  month : ℕ
  day : ℕ
  hour : ℕ
  minute : ℕ
  second : ℕ
  microsecond : ℕ
deriving DecidableEq

/-- `datetime(year, month, day, hour) + timedelta(milliseconds=ms)` for
offsets that stay inside the same calendar day (all that the per-hour
normalizer produces for in-range data); day rollover is not modelled. -/
def hourStartPlusMs (year month day hour ms : ℕ) : PyDateTime :=
  { year := year, month := month, day := day
    hour := hour + ms / 3600000
    minute := ms / 60000 % 60
    second := ms / 1000 % 60
    microsecond := ms % 1000 * 1000 }

/-- Zero-padded 2-digit field. -/
def pad2 (n : ℕ) : List Char := if n < 10 then '0' :: natRepr n else natRepr n

/-- Zero-padded 4-digit field (`%Y`). -/
def pad4 (n : ℕ) : List Char :=
  let d := natRepr n
  List.replicate (4 - d.length) '0' ++ d

/-- `format_datetime` of `src/core/csv_dumper.py` (lines 33–37) on a
`datetime`: `strftime('%d.%m.%Y %H:%M:%S')`.  The format has no `%f`
directive, so the microsecond component is not printed. -/
def format_datetime (dt : PyDateTime) : List Char :=
  pad2 dt.day ++ ".".data ++ pad2 dt.month ++ ".".data ++ pad4 dt.year ++
    " ".data ++ pad2 dt.hour ++ ":".data ++ pad2 dt.minute ++ ":".data ++
    pad2 dt.second

/-- The `time` field of a tick-mode row built by `CSVDumper.append`
(`src/core/csv_dumper.py` lines 111–119): `format_datetime(tick[0])`. -/
def tick_row_time (dt : PyDateTime) : List Char := format_datetime dt

/-! ## Candle aggregation (`src/core/csv_dumper.py`, `src/core/candle.py`) -/

/-- `price_type` of `CSVDumper` (settings `PriceType`). -/
inductive PriceType where
  | BID
  | ASK
  | MID
deriving DecidableEq

/-- `volume_type` of `CSVDumper` (settings `VolumeType`). -/
inductive VolumeType where
  | TOTAL
  | BID
  | ASK
  | TICKS
deriving DecidableEq

/-- A tick as seen by `CSVDumper.append`:
`(datetime, ask, bid, ask_volume, bid_volume)`, the datetime as epoch
milliseconds. -/
structure DTick where
  tsMs : ℤ
  ask : ℚ
  bid : ℚ
  askVol : ℚ
  bidVol : ℚ
deriving DecidableEq

/-- `CSVDumper._get_price` (`src/core/csv_dumper.py` lines 75–81). -/
def getPrice (pt : PriceType) (t : DTick) : ℚ :=
  match pt with
  | .ASK => t.ask
  | .MID => (t.ask + t.bid) / 2
  | .BID => t.bid

/-- `CSVDumper._get_volume` (`src/core/csv_dumper.py` lines 83–91). -/
def getVolume (vt : VolumeType) (t : DTick) : ℚ :=
  match vt with
  | .BID => t.bidVol
  | .ASK => t.askVol
  | .TICKS => 1
  | .TOTAL => t.askVol + t.bidVol

/-- `calendar.timegm(tick[0].timetuple())` — the tick's epoch seconds,
sub-second part truncated (floor). -/
def tickSec (t : DTick) : ℤ := t.tsMs / 1000

/-- `key = int(ts - (ts % self.timeframe))` — the tick's bucket key. -/
def keyOf (P : ℤ) (t : DTick) : ℤ := tickSec t - tickSec t % P

/-- Python `max` over a nonempty list (head-seeded left fold). -/
def pyMax : List ℚ → ℚ
  | [] => 0
  | p :: ps => ps.foldl max p

/-- Python `min` over a nonempty list (head-seeded left fold). -/
def pyMin : List ℚ → ℚ
  | [] => 0
  | p :: ps => ps.foldl min p

/-- Python `sum` over a list of rationals. -/
def qsum (l : List ℚ) : ℚ := l.foldl (· + ·) 0

/-- The OHLC fields computed by `Candle.__init__`
(`src/core/candle.py` lines 12–33): for nonempty `sorted_values`, open,
close, high and low are the first, last, max and min selected price each
rounded with `round(_, 5)`; for an empty list all four are `0.0`. -/
structure Candle where
  timestamp : ℤ
  open_price : ℚ
  close_price : ℚ
  high : ℚ
  low : ℚ
deriving DecidableEq

/-- `Candle(symbol, timestamp, timeframe, sorted_values)`. -/
def Candle.make (timestamp : ℤ) (sorted_values : List ℚ) : Candle :=
  match sorted_values with
  | [] => { timestamp := timestamp, open_price := 0, close_price := 0, high := 0, low := 0 }
  | p :: ps =>
      { timestamp := timestamp
        open_price := round5 p
        close_price := round5 ((p :: ps).getLast (List.cons_ne_nil p ps))
        high := round5 (pyMax (p :: ps))
        low := round5 (pyMin (p :: ps)) }

/-- One candle-mode output row (the dict written by `CSVDumper.append`
and read back by `CSVDumper.dump`), with numeric field values in place
of their decimal-string forms. -/
structure CRow where
  time : ℤ
  open_price : ℚ
  high : ℚ
  low : ℚ
  close_price : ℚ
  volume : ℚ
deriving DecidableEq

/-- The row dict built from a `Candle` and a volume in
`CSVDumper.append`. -/
def candleRow (ts : ℤ) (prices : List ℚ) (vol : ℚ) : CRow :=
  let c := Candle.make ts prices
  { time := ts, open_price := c.open_price, high := c.high, low := c.low
    close_price := c.close_price, volume := vol }

/-- Loop state of the candle branch of `CSVDumper.append`
(`src/core/csv_dumper.py` lines 122–151): `previous_key`,
`current_prices`, `current_volumes`, and the rows emitted so far. -/
structure AggSt where
  prevKey : Option ℤ
  curPrices : List ℚ
  curVols : List ℚ
  rows : List CRow

/-- One iteration of the candle loop of `CSVDumper.append`: on a bucket
change, emit `n = int((key - previous_key) / timeframe)` candles — the
completed bucket and zero gap-fill candles — then reset the accumulators;
always append the tick's selected price and volume and set
`previous_key = key`. -/
def append_step (P : ℤ) (pt : PriceType) (vt : VolumeType) (st : AggSt) (t : DTick) :
    AggSt :=
  let key := keyOf P t
  let st' : AggSt :=
    match st.prevKey with
    | some pk =>
        if pk ≠ key then
          let n := ((key - pk).tdiv P).toNat
          let gap := (List.range n).map fun i : ℕ =>
            candleRow (pk + (i : ℤ) * P) (if i = 0 then st.curPrices else [])
              (if i = 0 then qsum st.curVols else 0)
          { prevKey := st.prevKey, curPrices := [], curVols := [], rows := st.rows ++ gap }
        else st
    | none => st
  { prevKey := some key
    curPrices := st'.curPrices ++ [getPrice pt t]
    curVols := st'.curVols ++ [getVolume vt t]
    rows := st'.rows }

/-- The candle branch of `CSVDumper.append` for one day's tick list:
fold the loop, then flush the final bucket when `previous_key` is set and
`current_prices` is nonempty. -/
def append_candles (P : ℤ) (pt : PriceType) (vt : VolumeType) (ticks : List DTick) :
    List CRow :=
  let st := ticks.foldl (append_step P pt vt) ⟨none, [], [], []⟩
  match st.prevKey with
  | some pk => if st.curPrices.isEmpty then st.rows
               else st.rows ++ [candleRow pk st.curPrices (qsum st.curVols)]
  | none => st.rows

/-! ## Cross-day candle merger (`src/core/aggregator.py`) -/

/-- `CandleMerger._merge` (`src/core/aggregator.py` lines 37–63):
open from the first row, close from the second, max high, min low,
`round(v1 + v2, 2)` volume, first row's time. -/
def merge_rows (r1 r2 : CRow) : CRow :=
  { time := r1.time
    open_price := r1.open_price
    high := max r1.high r2.high
    low := min r1.low r2.low
    close_price := r2.close_price
    volume := round2 (r1.volume + r2.volume) }

/-- `CandleMerger.feed` (`src/core/aggregator.py` lines 11–31): returns
the new buffered row and the completed row (if any). -/
def feed (last : Option CRow) (row : CRow) : Option CRow × Option CRow :=
  match last with
  | none => (some row, none)
  | some lr =>
      if row.time = lr.time then (some (merge_rows lr row), none)
      else (some row, some lr)

/-- One iteration of the merge loop in `CSVDumper.dump`
(`src/core/csv_dumper.py` lines 187–233): feed the row, write the
completed row if any. -/
def dump_step (acc : Option CRow × List CRow) (row : CRow) : Option CRow × List CRow :=
  let (st, outs) := acc
  let (st', out) := feed st row
  (st', outs ++ out.toList)

/- `CandleMerger.flush` returns the buffered row; `dump` writes it when
present.  `dump_merge` is the whole candle merge pass of `dump` over the
concatenated sorted part stream. -/

/-- The candle merge pass of `CSVDumper.dump` over a row stream. -/
def dump_merge (rows : List CRow) : List CRow :=
  let (st, outs) := rows.foldl dump_step (none, [])
  outs ++ st.toList

/-- The buffered-row state after feeding a whole stream
(`CandleMerger.flush` of the merger used by `dump`). -/
def flush_state (rows : List CRow) : Option CRow :=
  (rows.foldl dump_step (none, [])).1

/-- The final candle output assembled by `CSVDumper.dump` from per-day
part files (each the `append_candles` rows of one day, concatenated in
ascending day order). -/
def dump_candles (P : ℤ) (pt : PriceType) (vt : VolumeType)
    (days : List (List DTick)) : List CRow :=
  dump_merge ((days.map (append_candles P pt vt)).flatten)

/-! ## Specification vocabulary

Definitions below are not translations of repository code: they are the
vocabulary in which the specified properties are stated (bucket of a
timestamp, adjacent-duplicate removal), to be compared with the
code-derived functions above. -/

/-- The ticks of `l` falling in the bucket that starts at `ts`. -/
def bucketOf (P : ℤ) (ts : ℤ) (l : List DTick) : List DTick :=
  l.filter fun t => decide (keyOf P t = ts)

/-- The candle row the specification predicts for the bucket starting at
`ts`: OHLC of the bucket's selected prices, summed selected volume. -/
def bucketRow (P : ℤ) (pt : PriceType) (vt : VolumeType) (ts : ℤ) (l : List DTick) :
    CRow :=
  candleRow ts ((bucketOf P ts l).map (getPrice pt))
    (qsum ((bucketOf P ts l).map (getVolume vt)))

/-- Remove adjacent duplicates (one representative per maximal run of
equal consecutive values). -/
def dedupAdj : List ℤ → List ℤ
  | [] => []
  | [a] => [a]
  | a :: b :: rest => if a = b then dedupAdj (b :: rest) else a :: dedupAdj (b :: rest)

/-- The output of the merge loop from a buffered row `last` over the
remaining input `l`, final flush included (recursion view of
`dump_merge`). -/
def outputsFrom (last : CRow) : List CRow → List CRow
  | [] => [last]
  | r :: rest =>
      if r.time = last.time then outputsFrom (merge_rows last r) rest
      else last :: outputsFrom r rest

/-- The last tick of the nonempty list `p0 :: pre`. -/
def lastTick (p0 : DTick) (pre : List DTick) : DTick :=
  (p0 :: pre).getLast (List.cons_ne_nil _ _)

/-- Closed form of the `CSVDumper.append` loop state after the nonempty
sorted prefix `p0 :: pre`: the buffered key is the last tick's bucket
key, the accumulators hold the last bucket's selected prices and
volumes, and the emitted rows are the spec's bucket rows for every
period from the first bucket up to (excluding) the buffered one. -/
def aggState (P : ℤ) (pt : PriceType) (vt : VolumeType) (p0 : DTick) (pre : List DTick) :
    AggSt :=
  let k0 := keyOf P p0
  let k := keyOf P (lastTick p0 pre)
  { prevKey := some k
    curPrices := (bucketOf P k (p0 :: pre)).map (getPrice pt)
    curVols := (bucketOf P k (p0 :: pre)).map (getVolume vt)
    rows := (List.range ((k - k0) / P).toNat).map fun i : ℕ =>
        bucketRow P pt vt (k0 + (i : ℤ) * P) (p0 :: pre) }

/-! ## Codec failure modes (C6) -/

theorem decompress_lzma_loop_goods (payloads : List (List ℕ)) :
    ∀ (acc : List (List ℕ)) (rest : List LZChunk),
      payloads ≠ [] ∨ acc ≠ [] →
      decompress_lzma_loop ((payloads.map fun p => LZChunk.good p true) ++ LZChunk.bad :: rest) acc
        = .ok ((acc.reverse ++ payloads).flatten) := by
  induction payloads with
  | nil =>
      intro acc rest h
      have hacc : acc ≠ [] := by tauto
      simp [decompress_lzma_loop, List.isEmpty_iff, hacc]
  | cons p ps ih =>
      intro acc rest _
      have hne : (ps.map fun q => LZChunk.good q true) ++ LZChunk.bad :: rest ≠ [] := by
        simp
      simp only [List.map_cons, List.cons_append, decompress_lzma_loop,
        List.isEmpty_iff, List.append_eq, if_neg hne, if_true]
      rw [ih (p :: acc) rest (Or.inr (by simp))]
      simp

/-- Claim C6: the codec's failure modes.  (a) A malformed first LZMA
stream makes `decompress_lzma` raise.  (b) If at least one stream decodes
(to its end-of-stream marker) and undecodable bytes follow, the decoded
prefix is returned and the trailing bytes are silently discarded.
(c) `tokenize` parses exactly `len(buffer) // 20` records, discarding the
remainder. -/
theorem C6_codec_failure_modes :
    (∀ rest : List LZChunk, decompress_lzma (LZChunk.bad :: rest) = .error ())
  ∧ (∀ (payloads : List (List ℕ)) (rest : List LZChunk), payloads ≠ [] →
      decompress_lzma ((payloads.map fun p => LZChunk.good p true) ++ LZChunk.bad :: rest)
        = .ok payloads.flatten)
  ∧ (∀ buffer : List ℕ, (tokenize buffer).length = buffer.length / 20) := by
  refine ⟨?_, ?_, ?_⟩
  · intro rest
    simp [decompress_lzma, decompress_lzma_loop]
  · intro payloads rest hne
    have hlist : (payloads.map fun p => LZChunk.good p true) ++ LZChunk.bad :: rest ≠ [] := by
      simp
    rw [decompress_lzma, if_neg (by simp [List.isEmpty_iff]),
      decompress_lzma_loop_goods payloads [] rest (Or.inl hne)]
    simp
  · intro buffer
    simp [tokenize]

/-- Witness for C6: a concrete buffer of one good stream followed by
garbage decodes to the stream's payload, and a 45-byte buffer parses to
2 records. -/
theorem C6_codec_failure_modes_witness :
    decompress_lzma [LZChunk.good [7, 8] true, LZChunk.bad] = .ok [7, 8]
  ∧ (tokenize (List.replicate 45 0)).length = 2 := by
  constructor
  · exact C6_codec_failure_modes.2.1 [[7, 8]] [] (by simp)
  · rw [C6_codec_failure_modes.2.2 (List.replicate 45 0)]
    decide

/-! ## Fetcher retry exhaustion (C5) -/

theorem getLastD_of_ne_nil {α : Type} {l : List α} (h : l ≠ []) (d d' : α) :
    l.getLastD d = l.getLastD d' := by
  rw [List.getLastD_eq_getLast? _ _, List.getLastD_eq_getLast? _ _,
    List.getLast?_eq_getLast l h]
  rfl

theorem download_hour_loop_exhaust (hour : ℕ) :
    ∀ (attempts : List Attempt) (init : Option (List Char)), attempts ≠ [] →
      (∀ x ∈ attempts, attemptDone x = false) →
      download_hour_loop hour attempts init
        = if contains503 (attemptErr (attempts.getLastD (.timeout ())))
          then .error () else .ok (hour, []) := by
  intro attempts
  induction attempts with
  | nil => intro init h _; exact absurd rfl h
  | cons x xs ih =>
      intro init _ hall
      have hxf : attemptDone x = false := hall x (List.mem_cons_self x xs)
      have hxs : ∀ y ∈ xs, attemptDone y = false := fun y hy =>
        hall y (List.mem_cons_of_mem x hy)
      by_cases hxsnil : xs = []
      · subst hxsnil
        cases x with
        | ok data => simp [attemptDone] at hxf
        | notFound => simp [attemptDone] at hxf
        | httpStatus code => simp [download_hour_loop]
        | timeout m => simp [download_hour_loop]
        | clientError m => simp [download_hour_loop]
      · have hlastd : (x :: xs).getLastD (Attempt.timeout ()) = xs.getLastD (.timeout ()) := by
          rw [List.getLastD_cons]
          exact getLastD_of_ne_nil hxsnil x (.timeout ())
        rw [hlastd]
        cases x with
        | ok data => simp [attemptDone] at hxf
        | notFound => simp [attemptDone] at hxf
        | httpStatus code => simpa [download_hour_loop] using ih _ hxsnil hxs
        | timeout m => simpa [download_hour_loop] using ih _ hxsnil hxs
        | clientError m => simpa [download_hour_loop] using ih _ hxsnil hxs

/-- Claim C5 (amended): when all `DOWNLOAD_ATTEMPTS` attempts fail
(no 200 and no 404), `download_hour` raises the persistent-throttling
signal `BackoffError` iff the LAST attempt's recorded error message
contains `"503"`; every other exhaustion returns empty bytes, so nothing
but that signal escapes the fetch loop. -/
theorem C5_throttle_signal (hour : ℕ) (attempts : List Attempt)
    (hlen : attempts.length = DOWNLOAD_ATTEMPTS)
    (hfail : ∀ x ∈ attempts, attemptDone x = false) :
    download_hour hour attempts
      = if contains503 (attemptErr (attempts.getLastD (.timeout ()))) then .error ()
        else .ok (hour, []) := by
  have hne : attempts ≠ [] := by
    intro h
    rw [h] at hlen
    simp [DOWNLOAD_ATTEMPTS] at hlen
  exact download_hour_loop_exhaust hour attempts none hne hfail

/-- Witness for C5 (amended): ten straight 503s raise the signal. -/
theorem C5_throttle_signal_witness :
    download_hour 1 (List.replicate 10 (Attempt.httpStatus 503)) = .error () := by
  rw [C5_throttle_signal 1 (List.replicate 10 (Attempt.httpStatus 503))
    (by decide) (by decide)]
  rw [if_pos (by decide)]

/-- Counterexample to C5 as stated: an attempt history of nine 503s
followed by one 504 is dominated by 503, yet exhaustion returns empty
bytes instead of raising the persistent-throttling signal — the code
only inspects the LAST error message. -/
theorem C5_last_error_counterexample :
    (List.replicate 9 (Attempt.httpStatus 503) ++ [Attempt.httpStatus 504]).length
        = DOWNLOAD_ATTEMPTS
  ∧ (List.replicate 9 (Attempt.httpStatus 503) ++ [Attempt.httpStatus 504]).count
        (Attempt.httpStatus 503) = 9
  ∧ download_hour 0 (List.replicate 9 (Attempt.httpStatus 503) ++ [Attempt.httpStatus 504])
        = .ok (0, []) := by
  refine ⟨by decide, by decide, rfl⟩

/-! ## Symbol validation (C10) -/

theorem re_match_symbol_iff (s : String) :
    re_match_symbol s = true
      ↔ ∃ core : List Char, (s.data = core ∨ s.data = core ++ ['\n'])
          ∧ core ≠ [] ∧ ∀ c ∈ core, isAZ09 c = true := by
  simp only [re_match_symbol]
  by_cases hlast : s.data.getLastD ' ' = '\n'
  · have hne : s.data ≠ [] := by
      intro h
      rw [h] at hlast
      exact absurd hlast (by decide)
    have hsplit : s.data.dropLast ++ [s.data.getLast hne] = s.data :=
      List.dropLast_concat_getLast hne
    have hlastc : s.data.getLast hne = '\n' := by
      rw [← hlast, List.getLastD_eq_getLast? _ _, List.getLast?_eq_getLast _ hne]
      rfl
    rw [if_pos hlast]
    simp only [Bool.and_eq_true, Bool.not_eq_true', List.isEmpty_eq_false,
      ne_eq, List.all_eq_true]
    constructor
    · rintro ⟨hdne, hall⟩
      refine ⟨s.data.dropLast, Or.inr ?_, hdne, hall⟩
      rw [← hlastc]
      exact hsplit.symm
    · rintro ⟨core, hcase, hcne, hall⟩
      rcases hcase with hc | hc
      · exfalso
        subst hc
        have : isAZ09 '\n' = true := hlastc ▸ hall _ (List.getLast_mem hne)
        exact absurd this (by decide)
      · have hd : s.data.dropLast = core := by
          rw [hc, List.dropLast_concat]
        exact ⟨hd ▸ hcne, hd ▸ hall⟩
  · rw [if_neg hlast]
    simp only [Bool.and_eq_true, Bool.not_eq_true', List.isEmpty_eq_false,
      ne_eq, List.all_eq_true]
    constructor
    · rintro ⟨hne, hall⟩
      exact ⟨s.data, Or.inl rfl, hne, hall⟩
    · rintro ⟨core, hcase, hcne, hall⟩
      rcases hcase with hc | hc
      · exact ⟨hc ▸ hcne, hc ▸ hall⟩
      · exfalso
        apply hlast
        rw [hc, List.getLastD_eq_getLast? _ _, List.getLast?_concat]
        rfl

/-- Claim C10 (amended): symbol validation raises `ValueError` iff some
symbol fails Python's `re.match(r'^[A-Z0-9]+$', s)` — i.e. iff the symbol
is not a nonempty run of `A`–`Z`/`0`–`9` characters optionally followed
by one trailing newline (`$` matches just before a final newline).
Lowercase letters, hyphens and inner whitespace are rejected; a single
trailing newline is tolerated. -/
theorem C10_symbol_validation (syms : List String) :
    validate_symbols syms = .ok ()
      ↔ ∀ s ∈ syms, ∃ core : List Char,
          (s.data = core ∨ s.data = core ++ ['\n'])
          ∧ core ≠ [] ∧ ∀ c ∈ core, isAZ09 c = true := by
  induction syms with
  | nil => simp [validate_symbols]
  | cons s rest ih =>
      by_cases hs : re_match_symbol s = true
      · simp only [validate_symbols, if_pos hs, ih, List.mem_cons]
        constructor
        · intro hall x hx
          rcases hx with rfl | hx
          · exact (re_match_symbol_iff x).mp hs
          · exact hall x hx
        · intro hall x hx
          exact hall x (Or.inr hx)
      · simp only [validate_symbols, if_neg hs]
        constructor
        · intro h
          exact absurd h (by simp)
        · intro hall
          exact absurd ((re_match_symbol_iff s).mpr (hall s (List.mem_cons_self s rest))) hs

/-- Witness for C10 (amended): a well-formed symbol list validates. -/
theorem C10_symbol_validation_witness :
    validate_symbols ["EURUSD"] = .ok () := by
  refine (C10_symbol_validation ["EURUSD"]).mpr ?_
  intro s hs
  rw [List.mem_singleton] at hs
  subst hs
  exact ⟨"EURUSD".data, Or.inl rfl, by decide, by decide⟩

/-- Counterexample to C10 as stated: `"ABC\n"` contains a character
outside `A`–`Z`/`0`–`9` (a newline — whitespace), yet validation
accepts it, because Python's `$` matches before a trailing newline. -/
theorem C10_trailing_newline_counterexample :
    validate_symbols ["ABC\n"] = .ok ()
  ∧ '\n' ∈ "ABC\n".data ∧ isAZ09 '\n' = false := by
  refine ⟨rfl, by decide, by decide⟩

/-! ## Tick timestamp formatting (C7) -/

/-- Claim C7 is a code bug: the repository's own
`tests/test_millisecond_precision.py` requires a `.mmm` sub-second
suffix on tick timestamps, and the spec's concrete scenario expects
`15.01.2024 12:00:00.001` for a tick with `time_ms = 1` in hour 12 of
2024-01-15 — but `format_datetime` formats with
`'%d.%m.%Y %H:%M:%S'` (no `%f`), so the emitted time field is
`15.01.2024 12:00:00`: the non-zero sub-second part is dropped. -/
theorem C7_millisecond_drop :
    (hourStartPlusMs 2024 1 15 12 1).microsecond = 1000
  ∧ tick_row_time (hourStartPlusMs 2024 1 15 12 1) = "15.01.2024 12:00:00".data
  ∧ "15.01.2024 12:00:00".data ≠ "15.01.2024 12:00:00.001".data := by
  refine ⟨rfl, by decide, by decide⟩

/-! ## Decode-fatal day handling (C8) -/

/-- Counterexample to C8 as stated: in the default (non-resume)
configuration, a day whose only hourly blob has a malformed first LZMA
stream (decode-fatal) is still marked completed — `decompress` swallows
the error per hour (`except Exception: pass`, with no log), so
`do_work` returns success and appends the day to the plain-list
`completed_list`. -/
theorem C8_decode_fatal_day_completed :
    do_work "EURUSD" 19738 (initial_completed false []) (.ok [(0, [LZChunk.bad])])
      = (true, .pylist [19738], [])
  ∧ decompress "EURUSD" 19738 [(0, [LZChunk.bad])] = [] := by
  exact ⟨rfl, rfl⟩

/-- Claim C8 (amended): a decode-fatal hourly blob is swallowed inside
`decompress` — the hour contributes no ticks, nothing is logged for it,
and the rest of the day is unaffected — so decode failure never
influences completion marking.  Completion marking depends only on the
resume flag: without resume, every day whose fetch succeeded is marked
completed (decode-fatal blobs or not), so it does NOT re-appear on
resume; with resume enabled, `completed_list` is the set returned by
`load_state` and `completed_list.append(day)` raises `AttributeError`,
caught and logged by the generic handler, so NO day is marked completed
(decode-fatal or not) and every day re-appears as pending, although its
rows were already written to the dumper.  A `BackoffError` also leaves
the day not completed.  Remaining days continue in every case. -/
theorem C8_decode_fatal_swallowed (symbol : String) (day : ℤ) (hour : ℕ)
    (cs : List LZChunk) (rest : List (ℕ × List LZChunk))
    (raw : List (ℕ × List LZChunk)) (loaded : List ℤ) (c : CompletedStore) :
    processHour symbol day hour (LZChunk.bad :: cs) = []
  ∧ decompress symbol day ((hour, LZChunk.bad :: cs) :: rest) = decompress symbol day rest
  ∧ do_work symbol day (initial_completed false loaded) (.ok raw)
      = (true, .pylist [day], decompress symbol day raw)
  ∧ do_work symbol day (initial_completed true loaded) (.ok raw)
      = (false, .pyset loaded, decompress symbol day raw)
  ∧ do_work symbol day c (.error ()) = (false, c, []) := by
  refine ⟨?_, ?_, ?_, ?_, rfl⟩
  · simp [processHour, decompress_lzma, decompress_lzma_loop]
  · simp [decompress, processHour, decompress_lzma, decompress_lzma_loop]
  · simp [do_work, initial_completed, store_append]
  · simp [do_work, initial_completed, store_append]

/-! ## Candle merger (C9, C2) -/

theorem merge_rows_time (r1 r2 : CRow) : (merge_rows r1 r2).time = r1.time := rfl

theorem dump_step_merge {last r : CRow} (outs : List CRow) (h : r.time = last.time) :
    dump_step (some last, outs) r = (some (merge_rows last r), outs) := by
  simp [dump_step, feed, if_pos h]

theorem dump_step_new {last r : CRow} (outs : List CRow) (h : ¬r.time = last.time) :
    dump_step (some last, outs) r = (some r, outs ++ [last]) := by
  simp [dump_step, feed, if_neg h]

theorem dump_merge_eq_outputsFrom :
    ∀ (l : List CRow) (last : CRow) (outs : List CRow),
      (l.foldl dump_step (some last, outs)).2 ++
        ((l.foldl dump_step (some last, outs)).1).toList = outs ++ outputsFrom last l := by
  intro l
  induction l with
  | nil => intro last outs; simp [outputsFrom]
  | cons r rest ih =>
      intro last outs
      by_cases h : r.time = last.time
      · rw [List.foldl_cons, dump_step_merge outs h, outputsFrom, if_pos h]
        exact ih (merge_rows last r) outs
      · rw [List.foldl_cons, dump_step_new outs h, outputsFrom, if_neg h,
          ih r (outs ++ [last])]
        simp

theorem dump_merge_cons (r : CRow) (rest : List CRow) :
    dump_merge (r :: rest) = outputsFrom r rest := by
  have h := dump_merge_eq_outputsFrom rest r []
  simpa [dump_merge, dump_step, feed] using h

theorem outputsFrom_map_time :
    ∀ (l : List CRow) (last : CRow),
      (outputsFrom last l).map CRow.time = dedupAdj (last.time :: l.map CRow.time) := by
  intro l
  induction l with
  | nil => intro last; simp [outputsFrom, dedupAdj]
  | cons r rest ih =>
      intro last
      by_cases h : r.time = last.time
      · rw [outputsFrom, if_pos h, ih (merge_rows last r), merge_rows_time, List.map_cons]
        conv_rhs => rw [dedupAdj]
        rw [if_pos h.symm, h]
      · rw [outputsFrom, if_neg h, List.map_cons, ih r, List.map_cons]
        conv_rhs => rw [dedupAdj]
        rw [if_neg (fun hx => h hx.symm)]

theorem dedupAdj_head_cons (x : ℤ) : ∀ xs : List ℤ, ∃ ys, dedupAdj (x :: xs) = x :: ys := by
  intro xs
  induction xs generalizing x with
  | nil => exact ⟨[], rfl⟩
  | cons b bs ih =>
      by_cases h : x = b
      · rcases ih b with ⟨ys, hys⟩
        exact ⟨ys, by rw [dedupAdj, if_pos h, hys, h]⟩
      · exact ⟨dedupAdj (b :: bs), by rw [dedupAdj, if_neg h]⟩

theorem dedupAdj_chain' :
    ∀ l : List ℤ, l.Chain' (· ≤ ·) → (dedupAdj l).Chain' (· < ·) := by
  intro l
  induction l with
  | nil => intro _; simp [dedupAdj]
  | cons a rest ih =>
      intro hch
      cases rest with
      | nil => simp [dedupAdj]
      | cons b bs =>
          have hab : a ≤ b := (List.chain'_cons.mp hch).1
          have htail : (b :: bs).Chain' (· ≤ ·) := (List.chain'_cons.mp hch).2
          by_cases h : a = b
          · rw [dedupAdj, if_pos h]
            exact ih htail
          · rw [dedupAdj, if_neg h]
            rcases dedupAdj_head_cons b bs with ⟨ys, hys⟩
            rw [hys]
            exact List.chain'_cons.mpr ⟨lt_of_le_of_ne hab h, hys ▸ ih htail⟩

theorem dump_merge_map_time (rows : List CRow) :
    (dump_merge rows).map CRow.time = dedupAdj (rows.map CRow.time) := by
  cases rows with
  | nil => simp [dump_merge, dedupAdj]
  | cons r rest =>
      rw [dump_merge_cons, outputsFrom_map_time, List.map_cons]

theorem flush_state_ne_none :
    ∀ (l : List CRow) (last : CRow) (outs : List CRow),
      (l.foldl dump_step (some last, outs)).1 ≠ none := by
  intro l
  induction l with
  | nil => intro last outs h; exact Option.noConfusion h
  | cons r rest ih =>
      intro last outs
      by_cases h : r.time = last.time
      · simp only [List.foldl_cons, dump_step, feed, if_pos h]
        exact ih _ _
      · simp only [List.foldl_cons, dump_step, feed, if_neg h]
        exact ih _ _

/-- Claim C9: behaviour of `CandleMerger` over a whole input stream.
`feed` returns `None` on the first call and on every call whose row has
the buffered row's `time`; the non-`None` feed results followed by the
`flush` result are exactly one row per maximal run of consecutive
equal-`time` input rows, in input order (their `time` values are the
adjacent-deduplication of the input `time` sequence); and `flush`
returns `None` only for the empty input. -/
theorem C9_merger_runs :
    (∀ r : CRow, feed none r = (some r, none))
  ∧ (∀ (lr r : CRow), r.time = lr.time → (feed (some lr) r).2 = none)
  ∧ (∀ rows : List CRow,
      (dump_merge rows).map CRow.time = dedupAdj (rows.map CRow.time))
  ∧ (∀ rows : List CRow, flush_state rows = none ↔ rows = []) := by
  refine ⟨fun r => rfl, fun lr r h => by simp [feed, if_pos h], dump_merge_map_time, ?_⟩
  · intro rows
    cases rows with
    | nil => simp [flush_state]
    | cons r rest =>
        constructor
        · intro h
          exfalso
          have : (rest.foldl dump_step (some r, [])).1 ≠ none := flush_state_ne_none rest r []
          apply this
          simpa [flush_state, dump_step, feed] using h
        · intro h
          exact absurd h (List.cons_ne_nil r rest)

/-- Witness for C9: concrete instances of the hypothesis-bearing parts —
`feed` on two equal-time rows buffers their merge and emits nothing, and
a 3-row stream with two equal times merges to 2 rows. -/
theorem C9_merger_runs_witness :
    (feed (some ⟨5, 1, 2, 0, 1, 3⟩) ⟨5, 2, 3, 1, 2, 4⟩).2 = none
  ∧ (dump_merge [⟨5, 1, 2, 0, 1, 3⟩, ⟨5, 2, 3, 1, 2, 4⟩, ⟨6, 1, 1, 1, 1, 1⟩]).map CRow.time
      = [5, 6] := by
  constructor
  · exact C9_merger_runs.2.1 ⟨5, 1, 2, 0, 1, 3⟩ ⟨5, 2, 3, 1, 2, 4⟩ rfl
  · rw [C9_merger_runs.2.2.1]
    rfl

/-- A volume is a whole number of hundredths (every volume the pipeline
writes is: tick-derived volumes are integers, native-candle volumes are
rounded to 2 decimal places). -/
def Centi (q : ℚ) : Prop := ∃ n : ℤ, q = (n : ℚ) / 100

theorem pyRound_intCast (n : ℤ) : pyRound (n : ℚ) = n := by
  unfold pyRound
  norm_num

theorem round2_centi_sum {a b : ℚ} (ha : Centi a) (hb : Centi b) :
    round2 (a + b) = a + b := by
  rcases ha with ⟨m, rfl⟩
  rcases hb with ⟨n, rfl⟩
  unfold round2
  have h1 : ((m : ℚ) / 100 + (n : ℚ) / 100) * 100 = ((m + n : ℤ) : ℚ) := by
    push_cast
    ring
  rw [h1, pyRound_intCast]
  push_cast
  ring

/-- Claim C2: during final output assembly, consecutive equal-`time`
rows of the sorted partial stream are merged (open from the first row,
close from the second, max high, min low, summed volume — exact since
pipeline volumes are hundredths); consequently the final candle output
has strictly increasing `time` values: no duplicate timestamps, rows
non-decreasing. -/
theorem C2_cross_day_merge (rows : List CRow)
    (hsort : rows.Chain' (fun a b => a.time ≤ b.time))
    (hvol : ∀ r ∈ rows, Centi r.volume) :
    ((dump_merge rows).map CRow.time).Chain' (· < ·)
  ∧ ∀ r1 r2, r1 ∈ rows → r2 ∈ rows → r1.time = r2.time →
      merge_rows r1 r2
        = ⟨r1.time, r1.open_price, max r1.high r2.high, min r1.low r2.low,
           r2.close_price, r1.volume + r2.volume⟩ := by
  constructor
  · rw [dump_merge_map_time rows]
    exact dedupAdj_chain' _ (List.chain'_map_of_chain' CRow.time (fun a b h => h) hsort)
  · intro r1 r2 hr1 hr2 _
    unfold merge_rows
    rw [round2_centi_sum (hvol r1 hr1) (hvol r2 hr2)]

/-- Witness for C2: a concrete sorted two-part stream with a shared
timestamp merges to strictly increasing times with summed volume. -/
theorem C2_cross_day_merge_witness :
    ((dump_merge [⟨5, 1, 2, 0, 1, 3⟩, ⟨5, 2, 3, 1, 2, 4⟩, ⟨6, 1, 1, 1, 1, 1⟩]).map
        CRow.time).Chain' (· < ·)
  ∧ merge_rows ⟨5, 1, 2, 0, 1, 3⟩ ⟨5, 2, 3, 1, 2, 4⟩ = ⟨5, 1, max 2 3, min 0 1, 2, 3 + 4⟩ := by
  have h := C2_cross_day_merge [⟨5, 1, 2, 0, 1, 3⟩, ⟨5, 2, 3, 1, 2, 4⟩, ⟨6, 1, 1, 1, 1, 1⟩]
    (by norm_num [List.chain'_cons]) (by
      intro r hr
      simp only [List.mem_cons, List.not_mem_nil, or_false] at hr
      rcases hr with rfl | rfl | rfl
      · exact ⟨300, by norm_num⟩
      · exact ⟨400, by norm_num⟩
      · exact ⟨100, by norm_num⟩)
  refine ⟨h.1, ?_⟩
  exact h.2 ⟨5, 1, 2, 0, 1, 3⟩ ⟨5, 2, 3, 1, 2, 4⟩ (by simp) (by simp) rfl

/-! ## Bucket-key arithmetic (towards C1 and C3) -/

theorem tickSec_mono {a b : DTick} (h : a.tsMs ≤ b.tsMs) : tickSec a ≤ tickSec b :=
  Int.ediv_le_ediv (by norm_num) h

theorem keyOf_eq_mul (P : ℤ) (t : DTick) : keyOf P t = P * (tickSec t / P) := by
  rw [keyOf, Int.emod_def]
  ring

theorem keyOf_mono {P : ℤ} (hP : 0 < P) {a b : DTick} (h : a.tsMs ≤ b.tsMs) :
    keyOf P a ≤ keyOf P b := by
  rw [keyOf_eq_mul, keyOf_eq_mul]
  exact mul_le_mul_of_nonneg_left (Int.ediv_le_ediv hP (tickSec_mono h)) hP.le

theorem keyOf_dvd (P : ℤ) (t : DTick) : P ∣ keyOf P t :=
  ⟨tickSec t / P, keyOf_eq_mul P t⟩

theorem pairwise_le_lastTick :
    ∀ (pre : List DTick) (p0 : DTick),
      List.Pairwise (fun a b : DTick => a.tsMs ≤ b.tsMs) (p0 :: pre) →
      ∀ x ∈ p0 :: pre, x.tsMs ≤ (lastTick p0 pre).tsMs := by
  intro pre
  induction pre with
  | nil =>
      intro p0 _ x hx
      rw [List.mem_singleton] at hx
      subst hx
      exact le_rfl
  | cons q qs ih =>
      intro p0 hpw x hx
      have hlast : lastTick p0 (q :: qs) = lastTick q qs := by
        simp [lastTick, List.getLast_cons]
      have htail : List.Pairwise (fun a b : DTick => a.tsMs ≤ b.tsMs) (q :: qs) :=
        (List.pairwise_cons.mp hpw).2
      rw [hlast]
      rcases List.mem_cons.mp hx with rfl | hx'
      · have hq : x.tsMs ≤ q.tsMs :=
          (List.pairwise_cons.mp hpw).1 q (List.mem_cons_self q qs)
        exact hq.trans (ih q htail q (List.mem_cons_self q qs))
      · exact ih q htail x hx'

theorem lastTick_concat (p0 : DTick) (pre : List DTick) (t : DTick) :
    lastTick p0 (pre ++ [t]) = t := by
  simp [lastTick]

theorem lastTick_mem (p0 : DTick) (pre : List DTick) : lastTick p0 pre ∈ p0 :: pre :=
  List.getLast_mem _

theorem bucketOf_append (P ts : ℤ) (l1 l2 : List DTick) :
    bucketOf P ts (l1 ++ l2) = bucketOf P ts l1 ++ bucketOf P ts l2 :=
  List.filter_append ..

theorem bucketOf_singleton_of_eq (P ts : ℤ) {t : DTick} (h : keyOf P t = ts) :
    bucketOf P ts [t] = [t] := by
  simp [bucketOf, h]

theorem bucketOf_singleton_of_ne (P ts : ℤ) {t : DTick} (h : keyOf P t ≠ ts) :
    bucketOf P ts [t] = [] := by
  simp [bucketOf, h]

theorem bucketOf_eq_nil_of_gt (P ts : ℤ) {k : ℤ} {l : List DTick}
    (hb : ∀ x ∈ l, keyOf P x ≤ k) (hk : k < ts) : bucketOf P ts l = [] := by
  rw [bucketOf, List.filter_eq_nil_iff]
  intro x hx
  simp only [decide_eq_true_eq]
  exact fun he => absurd (he ▸ hb x hx) (not_le.mpr hk)

theorem append_step_aggState {P : ℤ} (hP : 0 < P) (pt : PriceType) (vt : VolumeType)
    (p0 : DTick) (pre : List DTick) (t : DTick)
    (hpw : List.Pairwise (fun a b : DTick => a.tsMs ≤ b.tsMs) (p0 :: pre))
    (hle : ∀ x ∈ p0 :: pre, x.tsMs ≤ t.tsMs) :
    append_step P pt vt (aggState P pt vt p0 pre) t = aggState P pt vt p0 (pre ++ [t]) := by
  have hbound : ∀ x ∈ p0 :: pre, keyOf P x ≤ keyOf P (lastTick p0 pre) := fun x hx =>
    keyOf_mono hP (pairwise_le_lastTick pre p0 hpw x hx)
  set k0 := keyOf P p0 with hk0def
  set k := keyOf P (lastTick p0 pre) with hkdef
  set k' := keyOf P t with hk'def
  have hk0k : k0 ≤ k := hbound p0 (List.mem_cons_self p0 pre)
  have hkk' : k ≤ k' := keyOf_mono hP (hle _ (lastTick_mem p0 pre))
  obtain ⟨a, ha⟩ : ∃ a : ℤ, k - k0 = P * a := (keyOf_dvd P _).sub (keyOf_dvd P _)
  obtain ⟨b, hb⟩ : ∃ b : ℤ, k' - k = P * b := (keyOf_dvd P _).sub (keyOf_dvd P _)
  have ha0 : 0 ≤ a := by
    have : 0 ≤ P * a := ha ▸ sub_nonneg.mpr hk0k
    exact nonneg_of_mul_nonneg_right this hP
  have hb0 : 0 ≤ b := by
    have : 0 ≤ P * b := hb ▸ sub_nonneg.mpr hkk'
    exact nonneg_of_mul_nonneg_right this hP
  have hNa : ((k - k0) / P).toNat = a.toNat := by rw [ha, Int.mul_ediv_cancel_left _ hP.ne']
  have hka : k = k0 + P * a := by omega
  have hk'b : k' = k + P * b := by omega
  have hlt_of_lt_a : ∀ i : ℕ, i < a.toNat → k0 + (i : ℤ) * P < k := by
    intro i hi
    have hia : (i : ℤ) < a := Int.lt_toNat.mp hi
    have : (i : ℤ) * P < a * P := mul_lt_mul_of_pos_right hia hP
    rw [hka]
    linarith [this]
  have hlast_concat : lastTick p0 (pre ++ [t]) = t := lastTick_concat p0 pre t
  by_cases hkey : k' = k
  · -- same bucket: accumulate only
    have hbt : bucketOf P k [t] = [t] := bucketOf_singleton_of_eq P k (hkey ▸ rfl)
    have hcur : bucketOf P k (p0 :: (pre ++ [t])) = bucketOf P k (p0 :: pre) ++ [t] := by
      rw [show p0 :: (pre ++ [t]) = (p0 :: pre) ++ [t] from rfl, bucketOf_append, hbt]
    have hrows : ∀ i ∈ List.range ((k - k0) / P).toNat,
        bucketRow P pt vt (k0 + (i : ℤ) * P) (p0 :: (pre ++ [t]))
          = bucketRow P pt vt (k0 + (i : ℤ) * P) (p0 :: pre) := by
      intro i hi
      have hlt : k0 + (i : ℤ) * P < k := by
        refine hlt_of_lt_a i ?_
        rw [← hNa]
        exact List.mem_range.mp hi
      have hne : keyOf P t ≠ k0 + (i : ℤ) * P := by
        rw [← hk'def, hkey]
        omega
      unfold bucketRow
      rw [show p0 :: (pre ++ [t]) = (p0 :: pre) ++ [t] from rfl, bucketOf_append,
        bucketOf_singleton_of_ne P _ hne, List.append_nil]
    have hrowseq : (List.range ((k - k0) / P).toNat).map
          (fun i : ℕ => bucketRow P pt vt (k0 + (i : ℤ) * P) (p0 :: (pre ++ [t])))
        = (List.range ((k - k0) / P).toNat).map
          (fun i : ℕ => bucketRow P pt vt (k0 + (i : ℤ) * P) (p0 :: pre)) :=
      List.map_congr_left hrows
    simp only [append_step, aggState, hlast_concat, ← hk'def, hkey, ne_eq,
      not_true_eq_false, if_false, ite_self, hcur, hrowseq, List.map_append,
      List.map_cons, List.map_nil]
  · -- bucket change: flush the completed bucket, emit gap candles, reset
    have hkey' : k ≠ k' := fun h => hkey h.symm
    have hkltk' : k < k' := lt_of_le_of_ne hkk' hkey'
    have hb1 : 1 ≤ b := by
      rcases lt_or_le b 1 with hblt | hble
      · exfalso
        have hb0' : b ≤ 0 := by omega
        nlinarith
      · exact hble
    have hbt' : bucketOf P k' [t] = [t] := bucketOf_singleton_of_eq P k' rfl
    have hfullnil : bucketOf P k' (p0 :: pre) = [] := bucketOf_eq_nil_of_gt P k' hbound hkltk'
    have hcur' : bucketOf P k' (p0 :: (pre ++ [t])) = [t] := by
      rw [show p0 :: (pre ++ [t]) = (p0 :: pre) ++ [t] from rfl, bucketOf_append,
        hfullnil, hbt', List.nil_append]
    have hn : ((k' - k).tdiv P).toNat = b.toNat := by
      rw [hb, Int.mul_tdiv_cancel_left _ hP.ne']
    have hNab : ((k' - k0) / P).toNat = a.toNat + b.toNat := by
      have h1 : k' - k0 = P * (a + b) := by rw [mul_add]; omega
      rw [h1, Int.mul_ediv_cancel_left _ hP.ne', Int.toNat_add ha0 hb0]
    have hE1 : ∀ i ∈ List.range a.toNat,
        bucketRow P pt vt (k0 + (i : ℤ) * P) (p0 :: (pre ++ [t]))
          = bucketRow P pt vt (k0 + (i : ℤ) * P) (p0 :: pre) := by
      intro i hi
      have hlt : k0 + (i : ℤ) * P < k := hlt_of_lt_a i (List.mem_range.mp hi)
      have hne : keyOf P t ≠ k0 + (i : ℤ) * P := by
        rw [← hk'def]
        omega
      unfold bucketRow
      rw [show p0 :: (pre ++ [t]) = (p0 :: pre) ++ [t] from rfl, bucketOf_append,
        bucketOf_singleton_of_ne P _ hne, List.append_nil]
    have hE2 : ∀ i ∈ List.range b.toNat,
        bucketRow P pt vt (k0 + ((a.toNat + i : ℕ) : ℤ) * P) (p0 :: (pre ++ [t]))
          = candleRow (k + (i : ℤ) * P)
              (if i = 0 then (bucketOf P k (p0 :: pre)).map (getPrice pt) else [])
              (if i = 0 then qsum ((bucketOf P k (p0 :: pre)).map (getVolume vt)) else 0) := by
      intro i hi
      have hib : (i : ℤ) < b := Int.lt_toNat.mp (List.mem_range.mp hi)
      have htime : k0 + ((a.toNat + i : ℕ) : ℤ) * P = k + (i : ℤ) * P := by
        push_cast
        rw [Int.toNat_of_nonneg ha0, add_mul, hka]
        ring
      rw [htime]
      rcases Nat.eq_zero_or_pos i with hi0 | hipos
      · subst hi0
        have hbk : bucketOf P k (p0 :: (pre ++ [t])) = bucketOf P k (p0 :: pre) := by
          rw [show p0 :: (pre ++ [t]) = (p0 :: pre) ++ [t] from rfl, bucketOf_append,
            bucketOf_singleton_of_ne P _ ( hk'def ▸ hkey'.symm), List.append_nil]
        simp only [Nat.cast_zero, zero_mul, add_zero, if_pos rfl, if_true]
        unfold bucketRow
        rw [hbk]
      · have hgt : k < k + (i : ℤ) * P := by
          have : 0 < (i : ℤ) * P := by positivity
          omega
        have hlt' : k + (i : ℤ) * P < k' := by
          have : (i : ℤ) * P < b * P := mul_lt_mul_of_pos_right hib hP
          rw [hk'b]
          linarith
        have hne0 : i ≠ 0 := Nat.pos_iff_ne_zero.mp hipos
        have hbnil : bucketOf P (k + (i : ℤ) * P) (p0 :: (pre ++ [t])) = [] := by
          rw [show p0 :: (pre ++ [t]) = (p0 :: pre) ++ [t] from rfl, bucketOf_append,
            bucketOf_eq_nil_of_gt P _ hbound hgt,
            bucketOf_singleton_of_ne P _ (by rw [← hk'def]; omega), List.append_nil]
        unfold bucketRow
        rw [hbnil]
        simp only [List.map_nil, if_neg hne0]
        rfl
    have hrows1 : (List.range a.toNat).map
          (fun i : ℕ => bucketRow P pt vt (k0 + (i : ℤ) * P) (p0 :: (pre ++ [t])))
        = (List.range a.toNat).map
          (fun i : ℕ => bucketRow P pt vt (k0 + (i : ℤ) * P) (p0 :: pre)) :=
      List.map_congr_left hE1
    have hrows2 : (List.range b.toNat).map
          (fun i : ℕ => bucketRow P pt vt (k0 + ((a.toNat + i : ℕ) : ℤ) * P) (p0 :: (pre ++ [t])))
        = (List.range b.toNat).map
          (fun i : ℕ => candleRow (k + (i : ℤ) * P)
            (if i = 0 then (bucketOf P k (p0 :: pre)).map (getPrice pt) else [])
            (if i = 0 then qsum ((bucketOf P k (p0 :: pre)).map (getVolume vt)) else 0)) :=
      List.map_congr_left hE2
    simp only [append_step, aggState, hlast_concat]
    rw [← hk'def, ← hkdef, ← hk0def]
    rw [if_pos (show ¬k = k' from hkey'), hn, hNa, hNab, hcur']
    simp only [List.range_add, List.map_append, List.map_map, Function.comp_def,
      List.map_cons, List.map_nil, List.nil_append]
    rw [hrows1, hrows2]

theorem foldl_aggState {P : ℤ} (hP : 0 < P) (pt : PriceType) (vt : VolumeType) :
    ∀ (rest : List DTick) (p0 : DTick) (pre : List DTick),
      List.Pairwise (fun a b : DTick => a.tsMs ≤ b.tsMs) ((p0 :: pre) ++ rest) →
      rest.foldl (append_step P pt vt) (aggState P pt vt p0 pre)
        = aggState P pt vt p0 (pre ++ rest) := by
  intro rest
  induction rest with
  | nil => intro p0 pre _; simp
  | cons t rest' ih =>
      intro p0 pre hpw
      have hsplit := List.pairwise_append.mp hpw
      have hpre : List.Pairwise (fun a b : DTick => a.tsMs ≤ b.tsMs) (p0 :: pre) := hsplit.1
      have hle : ∀ x ∈ p0 :: pre, x.tsMs ≤ t.tsMs := fun x hx =>
        hsplit.2.2 x hx t (List.mem_cons_self t rest')
      have hstep := append_step_aggState hP pt vt p0 pre t hpre hle
      rw [List.foldl_cons, hstep]
      have hpw' : List.Pairwise (fun a b : DTick => a.tsMs ≤ b.tsMs)
          ((p0 :: (pre ++ [t])) ++ rest') := by
        have : (p0 :: (pre ++ [t])) ++ rest' = (p0 :: pre) ++ (t :: rest') := by simp
        rw [this]
        exact hpw
      have := ih p0 (pre ++ [t]) hpw'
      rw [this]
      simp

/-- The first loop iteration from the initial state. -/
theorem append_step_init {P : ℤ} (pt : PriceType) (vt : VolumeType) (p0 : DTick) :
    append_step P pt vt ⟨none, [], [], []⟩ p0 = aggState P pt vt p0 [] := by
  simp only [append_step, aggState, lastTick, List.getLast_singleton]
  have hb : bucketOf P (keyOf P p0) [p0] = [p0] := bucketOf_singleton_of_eq P _ rfl
  simp [hb]

/-- Closed form of the candle branch of `CSVDumper.append` on a sorted
nonempty day: one row per period from the first tick's bucket to the
last tick's bucket inclusive, each row being the spec's bucket row. -/
theorem append_candles_characterization {P : ℤ} (hP : 0 < P) (pt : PriceType)
    (vt : VolumeType) (p0 : DTick) (rest : List DTick)
    (hpw : List.Pairwise (fun a b : DTick => a.tsMs ≤ b.tsMs) (p0 :: rest)) :
    append_candles P pt vt (p0 :: rest)
      = (List.range (((keyOf P (lastTick p0 rest) - keyOf P p0) / P).toNat + 1)).map
          (fun i : ℕ => bucketRow P pt vt (keyOf P p0 + (i : ℤ) * P) (p0 :: rest)) := by
  have hfold : (p0 :: rest).foldl (append_step P pt vt) ⟨none, [], [], []⟩
      = aggState P pt vt p0 rest := by
    rw [List.foldl_cons, append_step_init pt vt p0]
    have := foldl_aggState hP pt vt rest p0 [] (by simpa using hpw)
    simpa using this
  have hlastmem : lastTick p0 rest ∈ p0 :: rest := lastTick_mem p0 rest
  have hbne : bucketOf P (keyOf P (lastTick p0 rest)) (p0 :: rest) ≠ [] := by
    intro hnil
    have : lastTick p0 rest ∈ bucketOf P (keyOf P (lastTick p0 rest)) (p0 :: rest) := by
      rw [bucketOf, List.mem_filter]
      exact ⟨hlastmem, by simp⟩
    rw [hnil] at this
    exact absurd this (List.not_mem_nil _)
  have hcond : ((bucketOf P (keyOf P (lastTick p0 rest)) (p0 :: rest)).map
      (getPrice pt)).isEmpty = false := by
    rw [List.isEmpty_eq_false, ne_eq, List.map_eq_nil_iff]
    exact hbne
  obtain ⟨a, ha⟩ : ∃ a : ℤ, keyOf P (lastTick p0 rest) - keyOf P p0 = P * a :=
    (keyOf_dvd P _).sub (keyOf_dvd P _)
  have hk0k : keyOf P p0 ≤ keyOf P (lastTick p0 rest) :=
    keyOf_mono hP (pairwise_le_lastTick rest p0 hpw p0 (List.mem_cons_self p0 rest))
  have ha0 : 0 ≤ a := by
    have h1 : 0 ≤ P * a := ha ▸ sub_nonneg.mpr hk0k
    exact nonneg_of_mul_nonneg_right h1 hP
  have hNa : ((keyOf P (lastTick p0 rest) - keyOf P p0) / P).toNat = a.toNat := by
    rw [ha, Int.mul_ediv_cancel_left _ hP.ne']
  have hlasteq : keyOf P p0 + ((a.toNat : ℕ) : ℤ) * P = keyOf P (lastTick p0 rest) := by
    rw [Int.toNat_of_nonneg ha0, mul_comm]
    omega
  rw [append_candles, hfold]
  simp only [aggState, hcond, Bool.false_eq_true, if_false]
  rw [hNa, List.range_succ, List.map_append, List.map_cons, List.map_nil, hlasteq]
  rfl

/-! ## Rounding monotonicity and fold min/max bounds (towards C1) -/

theorem pyRound_floor_le (q : ℚ) : ⌊q⌋ ≤ pyRound q := by
  simp only [pyRound]
  split_ifs <;> omega

theorem pyRound_le_floor_succ (q : ℚ) : pyRound q ≤ ⌊q⌋ + 1 := by
  simp only [pyRound]
  split_ifs <;> omega

theorem pyRound_mono {a b : ℚ} (h : a ≤ b) : pyRound a ≤ pyRound b := by
  rcases lt_or_eq_of_le (Int.floor_le_floor h) with hf | hf
  · calc pyRound a ≤ ⌊a⌋ + 1 := pyRound_le_floor_succ a
      _ ≤ ⌊b⌋ := by omega
      _ ≤ pyRound b := pyRound_floor_le b
  · have hr : a - (⌊b⌋ : ℚ) ≤ b - (⌊b⌋ : ℚ) := by linarith
    simp only [pyRound]
    rw [hf]
    split_ifs <;> first | omega | linarith

theorem round5_mono {a b : ℚ} (h : a ≤ b) : round5 a ≤ round5 b := by
  unfold round5
  rw [div_le_div_iff_of_pos_right (by norm_num : (0 : ℚ) < 100000)]
  exact_mod_cast pyRound_mono (by linarith : a * 100000 ≤ b * 100000)

theorem init_le_foldl_max : ∀ (l : List ℚ) (c : ℚ), c ≤ l.foldl max c := by
  intro l
  induction l with
  | nil => intro c; exact le_rfl
  | cons d ds ih =>
      intro c
      rw [List.foldl_cons]
      exact (le_max_left c d).trans (ih (max c d))

theorem foldl_min_le_init : ∀ (l : List ℚ) (c : ℚ), l.foldl min c ≤ c := by
  intro l
  induction l with
  | nil => intro c; exact le_rfl
  | cons d ds ih =>
      intro c
      rw [List.foldl_cons]
      exact (ih (min c d)).trans (min_le_left c d)

theorem le_foldl_max : ∀ (l : List ℚ) (c x : ℚ), x = c ∨ x ∈ l → x ≤ l.foldl max c := by
  intro l
  induction l with
  | nil =>
      intro c x hx
      rcases hx with rfl | hx
      · exact le_rfl
      · exact absurd hx (List.not_mem_nil x)
  | cons d ds ih =>
      intro c x hx
      rw [List.foldl_cons]
      rcases hx with rfl | hx
      · exact (le_max_left x d).trans (init_le_foldl_max ds (max x d))
      · rcases List.mem_cons.mp hx with rfl | hx'
        · exact (le_max_right c x).trans (init_le_foldl_max ds (max c x))
        · exact ih (max c d) x (Or.inr hx')

theorem foldl_min_le : ∀ (l : List ℚ) (c x : ℚ), x = c ∨ x ∈ l → l.foldl min c ≤ x := by
  intro l
  induction l with
  | nil =>
      intro c x hx
      rcases hx with rfl | hx
      · exact le_rfl
      · exact absurd hx (List.not_mem_nil x)
  | cons d ds ih =>
      intro c x hx
      rw [List.foldl_cons]
      rcases hx with rfl | hx
      · exact (foldl_min_le_init ds (min x d)).trans (min_le_left x d)
      · rcases List.mem_cons.mp hx with rfl | hx'
        · exact (foldl_min_le_init ds (min c x)).trans (min_le_right c x)
        · exact ih (min c d) x (Or.inr hx')

theorem mem_le_pyMax {l : List ℚ} {x : ℚ} (hx : x ∈ l) : x ≤ pyMax l := by
  cases l with
  | nil => exact absurd hx (List.not_mem_nil x)
  | cons p ps =>
      rcases List.mem_cons.mp hx with rfl | hx'
      · exact le_foldl_max ps x x (Or.inl rfl)
      · exact le_foldl_max ps p x (Or.inr hx')

theorem pyMin_le_mem {l : List ℚ} {x : ℚ} (hx : x ∈ l) : pyMin l ≤ x := by
  cases l with
  | nil => exact absurd hx (List.not_mem_nil x)
  | cons p ps =>
      rcases List.mem_cons.mp hx with rfl | hx'
      · exact foldl_min_le ps x x (Or.inl rfl)
      · exact foldl_min_le ps p x (Or.inr hx')

/-- Claim C1: in candle mode at period `P > 0`, for every day and every
nonempty chronologically sorted tick list, each emitted candle whose
bucket is nonempty has open/close = the selected price of the
first/last tick of its bucket, high/low = the max/min of the bucket's
selected prices (each rounded to 5 decimal places with Python `round`),
and volume = the sum of the selected volumes of its contributing ticks;
consequently `low ≤ open ≤ high` and `low ≤ close ≤ high`. -/
theorem C1_candle_bucket_ohlcv (P : ℤ) (hP : 0 < P) (pt : PriceType) (vt : VolumeType)
    (ticks : List DTick) (hne : ticks ≠ [])
    (hpw : List.Pairwise (fun a b : DTick => a.tsMs ≤ b.tsMs) ticks) :
    ∀ r ∈ append_candles P pt vt ticks,
      ∀ b bs, bucketOf P r.time ticks = b :: bs →
        (r.open_price = round5 (getPrice pt b)
          ∧ r.close_price = round5 (getPrice pt ((b :: bs).getLast (List.cons_ne_nil b bs)))
          ∧ r.high = round5 (pyMax ((b :: bs).map (getPrice pt)))
          ∧ r.low = round5 (pyMin ((b :: bs).map (getPrice pt)))
          ∧ r.volume = qsum ((b :: bs).map (getVolume vt)))
        ∧ (r.low ≤ r.open_price ∧ r.open_price ≤ r.high
          ∧ r.low ≤ r.close_price ∧ r.close_price ≤ r.high) := by
  cases ticks with
  | nil => exact absurd rfl hne
  | cons p0 rest =>
      intro r hr b bs hbucket
      rw [append_candles_characterization hP pt vt p0 rest hpw] at hr
      obtain ⟨i, _, rfl⟩ := List.mem_map.mp hr
      have hb' : bucketOf P (keyOf P p0 + (i : ℤ) * P) (p0 :: rest) = b :: bs := hbucket
      have hopen : (bucketRow P pt vt (keyOf P p0 + (i : ℤ) * P) (p0 :: rest)).open_price
          = round5 (getPrice pt b) := by
        simp [bucketRow, hb', candleRow, Candle.make]
      have hclose : (bucketRow P pt vt (keyOf P p0 + (i : ℤ) * P) (p0 :: rest)).close_price
          = round5 (getPrice pt ((b :: bs).getLast (List.cons_ne_nil b bs))) := by
        simp [bucketRow, hb', candleRow, Candle.make]
        exact congrArg round5 (List.getLast_map (getPrice pt) (b :: bs) (by simp))
      have hhigh : (bucketRow P pt vt (keyOf P p0 + (i : ℤ) * P) (p0 :: rest)).high
          = round5 (pyMax ((b :: bs).map (getPrice pt))) := by
        simp [bucketRow, hb', candleRow, Candle.make, pyMax]
      have hlow : (bucketRow P pt vt (keyOf P p0 + (i : ℤ) * P) (p0 :: rest)).low
          = round5 (pyMin ((b :: bs).map (getPrice pt))) := by
        simp [bucketRow, hb', candleRow, Candle.make, pyMin]
      have hvol : (bucketRow P pt vt (keyOf P p0 + (i : ℤ) * P) (p0 :: rest)).volume
          = qsum ((b :: bs).map (getVolume vt)) := by
        simp [bucketRow, hb', candleRow]
      have hheadmem : getPrice pt b ∈ (b :: bs).map (getPrice pt) :=
        List.mem_map_of_mem _ (List.mem_cons_self b bs)
      have hlastmem : getPrice pt ((b :: bs).getLast (List.cons_ne_nil b bs))
          ∈ (b :: bs).map (getPrice pt) :=
        List.mem_map_of_mem _ (List.getLast_mem _)
      refine ⟨⟨hopen, hclose, hhigh, hlow, hvol⟩, ?_, ?_, ?_, ?_⟩
      · rw [hlow, hopen]
        exact round5_mono (pyMin_le_mem hheadmem)
      · rw [hopen, hhigh]
        exact round5_mono (mem_le_pyMax hheadmem)
      · rw [hlow, hclose]
        exact round5_mono (pyMin_le_mem hlastmem)
      · rw [hclose, hhigh]
        exact round5_mono (mem_le_pyMax hlastmem)

theorem round5_intCast (n : ℤ) : round5 ((n : ℚ)) = (n : ℚ) := by
  unfold round5
  rw [show ((n : ℚ) * 100000) = (((n * 100000 : ℤ)) : ℚ) from by push_cast; ring,
    pyRound_intCast]
  push_cast
  rw [mul_div_assoc, div_self (by norm_num), mul_one]

theorem round5_one : round5 (1 : ℚ) = 1 := by
  have h := round5_intCast 1
  simpa using h

/-- Witness for C1: a one-tick day at period 60 produces the single
candle with OHLC = the (rounded) bid and volume = ask + bid volume; the
OHLC inequalities hold on it. -/
theorem C1_candle_bucket_ohlcv_witness :
    append_candles 60 PriceType.BID VolumeType.TOTAL [⟨0, 2, 1, 1, 1⟩]
        = [⟨0, 1, 1, 1, 1, 2⟩]
  ∧ (⟨0, 1, 1, 1, 1, 2⟩ : CRow).low ≤ (⟨0, 1, 1, 1, 1, 2⟩ : CRow).open_price
  ∧ (⟨0, 1, 1, 1, 1, 2⟩ : CRow).open_price ≤ (⟨0, 1, 1, 1, 1, 2⟩ : CRow).high
  ∧ (⟨0, 1, 1, 1, 1, 2⟩ : CRow).volume
      = qsum ([(⟨0, 2, 1, 1, 1⟩ : DTick)].map (getVolume VolumeType.TOTAL)) := by
  have hrow : append_candles 60 PriceType.BID VolumeType.TOTAL [⟨0, 2, 1, 1, 1⟩]
      = [⟨0, 1, 1, 1, 1, 2⟩] := by
    simp [append_candles, append_step, keyOf, tickSec, candleRow, Candle.make,
      pyMax, pyMin, qsum, getPrice, getVolume, round5_one]
    norm_num
  have happ := C1_candle_bucket_ohlcv 60 (by norm_num) PriceType.BID VolumeType.TOTAL
    [⟨0, 2, 1, 1, 1⟩] (by simp) (by simp)
  have hmem : (⟨0, 1, 1, 1, 1, 2⟩ : CRow)
      ∈ append_candles 60 PriceType.BID VolumeType.TOTAL [⟨0, 2, 1, 1, 1⟩] := by
    rw [hrow]
    exact List.mem_singleton.mpr rfl
  have hbucket : bucketOf 60 ((⟨0, 1, 1, 1, 1, 2⟩ : CRow).time) [⟨0, 2, 1, 1, 1⟩]
      = [⟨0, 2, 1, 1, 1⟩] := by
    simp [bucketOf, keyOf, tickSec]
  have hres := happ _ hmem _ _ hbucket
  exact ⟨hrow, hres.2.1, hres.2.2.1, hres.1.2.2.2.2⟩

/-- Claim C3 (amended): within the rows produced from ONE day's sorted
tick stream, adjacent candle rows are exactly `P` seconds apart — the
gap-fill inside `CSVDumper.append` emits an all-zero candle (zero OHLC,
zero volume) for every intervening empty period.  The fill does NOT
extend across day boundaries (see the counterexample), so the claim's
statement over multi-day streams fails. -/
theorem C3_within_day_spacing (P : ℤ) (hP : 0 < P) (pt : PriceType) (vt : VolumeType)
    (ticks : List DTick)
    (hpw : List.Pairwise (fun a b : DTick => a.tsMs ≤ b.tsMs) ticks) :
    (append_candles P pt vt ticks).Chain' (fun r1 r2 => r2.time = r1.time + P)
  ∧ ∀ r ∈ append_candles P pt vt ticks, bucketOf P r.time ticks = [] →
      r.open_price = 0 ∧ r.high = 0 ∧ r.low = 0 ∧ r.close_price = 0 ∧ r.volume = 0 := by
  cases ticks with
  | nil =>
      refine ⟨?_, ?_⟩
      · exact List.chain'_nil
      · intro r hr
        exact absurd hr (List.not_mem_nil r)
  | cons p0 rest =>
      rw [append_candles_characterization hP pt vt p0 rest hpw]
      constructor
      · rw [List.chain'_map]
        rw [show (((keyOf P (lastTick p0 rest) - keyOf P p0) / P).toNat + 1)
          = (((keyOf P (lastTick p0 rest) - keyOf P p0) / P).toNat).succ from rfl,
          List.chain'_range_succ]
        intro m _
        show keyOf P p0 + ((m.succ : ℕ) : ℤ) * P = keyOf P p0 + (m : ℤ) * P + P
        push_cast
        ring
      · intro r hr hbucket
        obtain ⟨i, _, rfl⟩ := List.mem_map.mp hr
        have hb' : bucketOf P (keyOf P p0 + (i : ℤ) * P) (p0 :: rest) = [] := hbucket
        refine ⟨?_, ?_, ?_, ?_, ?_⟩ <;>
          simp [bucketRow, hb', candleRow, Candle.make, qsum]

/-- Witness for C3 (amended): a day with ticks three periods apart at
period 60 yields rows whose adjacent timestamps differ by exactly 60
(two all-zero gap candles in between). -/
theorem C3_within_day_spacing_witness :
    (append_candles 60 PriceType.BID VolumeType.TOTAL
        [⟨0, 1, 1, 1, 1⟩, ⟨180000, 1, 1, 1, 1⟩]).Chain'
      (fun r1 r2 => r2.time = r1.time + 60) :=
  (C3_within_day_spacing 60 (by norm_num) PriceType.BID VolumeType.TOTAL
    [⟨0, 1, 1, 1, 1⟩, ⟨180000, 1, 1, 1, 1⟩] (by norm_num [List.pairwise_cons])).1

/-- Counterexample to C3 as stated: a stream spanning two days with a
bucket gap across the day boundary.  Day 1 has one tick in bucket 0 and
day 2 one tick in bucket 172800 (period 3600).  The final merged output
has adjacent rows 172800 seconds apart — no empty candles are emitted
between days, because `CSVDumper.append` restarts its loop state for
every day and `CandleMerger` only merges equal timestamps. -/
theorem C3_cross_day_gap_counterexample :
    (dump_candles 3600 PriceType.BID VolumeType.TOTAL
        [[⟨0, 1, 1, 1, 1⟩], [⟨172800000, 1, 1, 1, 1⟩]]).map CRow.time = [0, 172800]
  ∧ ¬(172800 : ℤ) = 0 + 3600 := by
  have hday1 : append_candles 3600 PriceType.BID VolumeType.TOTAL [⟨0, 1, 1, 1, 1⟩]
      = [candleRow 0 [1] (qsum [1 + 1])] := by
    simp [append_candles, append_step, keyOf, tickSec, getPrice, getVolume]
  have hday2 : append_candles 3600 PriceType.BID VolumeType.TOTAL [⟨172800000, 1, 1, 1, 1⟩]
      = [candleRow 172800 [1] (qsum [1 + 1])] := by
    simp [append_candles, append_step, keyOf, tickSec, getPrice, getVolume]
  have hall : dump_candles 3600 PriceType.BID VolumeType.TOTAL
      [[⟨0, 1, 1, 1, 1⟩], [⟨172800000, 1, 1, 1, 1⟩]]
      = dump_merge [candleRow 0 [1] (qsum [1 + 1]), candleRow 172800 [1] (qsum [1 + 1])] := by
    rw [dump_candles, List.map_cons, List.map_cons, List.map_nil, hday1, hday2]
    rfl
  constructor
  · rw [hall]
    simp only [dump_merge, List.foldl_cons, List.foldl_nil, dump_step, feed]
    norm_num [candleRow]
  · decide

/-! ## Tick record decoding (C4) -/

theorem pointValue_special (symbol : String) :
    pointValue symbol
      = if symLower symbol ∈ ["usdrub".data, "xagusd".data, "xauusd".data,
          "xaugbp".data, "xaueur".data, "xageur".data, "xaggbp".data]
        then 1000 else 100000 := by
  unfold pointValue SPECIAL_POINT_SYMBOLS DEFAULT_POINT_VALUE
  by_cases h1 : symLower symbol = ['u', 's', 'd', 'r', 'u', 'b']
  · simp [List.lookup, h1]
  by_cases h2 : symLower symbol = ['x', 'a', 'g', 'u', 's', 'd']
  · simp [List.lookup, h1, h2]
  by_cases h3 : symLower symbol = ['x', 'a', 'u', 'u', 's', 'd']
  · simp [List.lookup, h1, h2, h3]
  by_cases h4 : symLower symbol = ['x', 'a', 'u', 'g', 'b', 'p']
  · simp [List.lookup, h1, h2, h3, h4]
  by_cases h5 : symLower symbol = ['x', 'a', 'u', 'e', 'u', 'r']
  · simp [List.lookup, h1, h2, h3, h4, h5]
  by_cases h6 : symLower symbol = ['x', 'a', 'g', 'e', 'u', 'r']
  · simp [List.lookup, h1, h2, h3, h4, h5, h6]
  by_cases h7 : symLower symbol = ['x', 'a', 'g', 'g', 'b', 'p']
  · simp [List.lookup, h1, h2, h3, h4, h5, h6, h7]
  · have b1 : (symLower symbol == ['u', 's', 'd', 'r', 'u', 'b']) = false :=
      beq_eq_false_iff_ne.mpr h1
    have b2 : (symLower symbol == ['x', 'a', 'g', 'u', 's', 'd']) = false :=
      beq_eq_false_iff_ne.mpr h2
    have b3 : (symLower symbol == ['x', 'a', 'u', 'u', 's', 'd']) = false :=
      beq_eq_false_iff_ne.mpr h3
    have b4 : (symLower symbol == ['x', 'a', 'u', 'g', 'b', 'p']) = false :=
      beq_eq_false_iff_ne.mpr h4
    have b5 : (symLower symbol == ['x', 'a', 'u', 'e', 'u', 'r']) = false :=
      beq_eq_false_iff_ne.mpr h5
    have b6 : (symLower symbol == ['x', 'a', 'g', 'e', 'u', 'r']) = false :=
      beq_eq_false_iff_ne.mpr h6
    have b7 : (symLower symbol == ['x', 'a', 'g', 'g', 'b', 'p']) = false :=
      beq_eq_false_iff_ne.mpr h7
    simp [List.lookup, h1, h2, h3, h4, h5, h6, h7, b1, b2, b3, b4, b5, b6, b7]

/-- Claim C4: the `i`-th decoded 20-byte big-endian record of an hour
blob (fields `time_ms:u32, ask_raw:u32, bid_raw:u32, ask_vol:f32,
bid_vol:f32`) normalizes to: instant = start of hour `hour` of day `day`
plus `time_ms` MILLISECONDS (offset from the hour, not the day), prices
= raw / point(symbol), volumes = `round(vol × 1_000_000)`; and
point(symbol) is 1000 exactly for the seven special symbols matched
case-insensitively, 100000 otherwise. -/
theorem C4_record_decode (symbol : String) (day : ℤ) (hour : ℕ) (buffer : List ℕ)
    (i : ℕ) (hi : i < buffer.length / 20) :
    (normalize_hour symbol day hour (tokenize buffer)).getD i ⟨0, 0, 0, 0, 0⟩
      = { tsMs := (day * 86400 + (hour : ℤ) * 3600) * 1000
            + (be32 (buffer.getD (i * 20) 0) (buffer.getD (i * 20 + 1) 0)
                (buffer.getD (i * 20 + 2) 0) (buffer.getD (i * 20 + 3) 0) : ℤ)
          ask := (be32 (buffer.getD (i * 20 + 4) 0) (buffer.getD (i * 20 + 5) 0)
                (buffer.getD (i * 20 + 6) 0) (buffer.getD (i * 20 + 7) 0) : ℚ)
              / pointValue symbol
          bid := (be32 (buffer.getD (i * 20 + 8) 0) (buffer.getD (i * 20 + 9) 0)
                (buffer.getD (i * 20 + 10) 0) (buffer.getD (i * 20 + 11) 0) : ℚ)
              / pointValue symbol
          askVolume := pyRound (f32val (be32 (buffer.getD (i * 20 + 12) 0)
                (buffer.getD (i * 20 + 13) 0) (buffer.getD (i * 20 + 14) 0)
                (buffer.getD (i * 20 + 15) 0)) * VOLUME_MULTIPLIER)
          bidVolume := pyRound (f32val (be32 (buffer.getD (i * 20 + 16) 0)
                (buffer.getD (i * 20 + 17) 0) (buffer.getD (i * 20 + 18) 0)
                (buffer.getD (i * 20 + 19) 0)) * VOLUME_MULTIPLIER) }
  ∧ pointValue symbol
      = if symLower symbol ∈ ["usdrub".data, "xagusd".data, "xauusd".data,
          "xaugbp".data, "xaueur".data, "xageur".data, "xaggbp".data]
        then 1000 else 100000 := by
  refine ⟨?_, pointValue_special symbol⟩
  have hlen : i < (normalize_hour symbol day hour (tokenize buffer)).length := by
    simpa [normalize_hour, tokenize] using hi
  rw [List.getD_eq_getElem _ _ hlen]
  simp [normalize_hour, tokenize, parseTickAt, hi]

/-- Witness for C4: a concrete 20-byte record with time_ms = 1, ask raw
= 2, bid raw = 3, zero volume fields, for a non-special symbol. -/
theorem C4_record_decode_witness :
    (normalize_hour "EURUSD" 0 0 (tokenize
        [0, 0, 0, 1, 0, 0, 0, 2, 0, 0, 0, 3, 0, 0, 0, 0, 0, 0, 0, 0])).getD 0 ⟨0, 0, 0, 0, 0⟩
      = ⟨1, 2 / 100000, 3 / 100000, 0, 0⟩
  ∧ pointValue "EURUSD" = 100000 := by
  have h := C4_record_decode "EURUSD" 0 0
    [0, 0, 0, 1, 0, 0, 0, 2, 0, 0, 0, 3, 0, 0, 0, 0, 0, 0, 0, 0] 0 (by decide)
  have hpt : pointValue "EURUSD" = 100000 := by decide
  refine ⟨?_, hpt⟩
  rw [h.1]
  have e1 : be32 ([0, 0, 0, 1, 0, 0, 0, 2, 0, 0, 0, 3, 0, 0, 0, 0, 0, 0, 0, 0].getD (0 * 20) 0)
      ([0, 0, 0, 1, 0, 0, 0, 2, 0, 0, 0, 3, 0, 0, 0, 0, 0, 0, 0, 0].getD (0 * 20 + 1) 0)
      ([0, 0, 0, 1, 0, 0, 0, 2, 0, 0, 0, 3, 0, 0, 0, 0, 0, 0, 0, 0].getD (0 * 20 + 2) 0)
      ([0, 0, 0, 1, 0, 0, 0, 2, 0, 0, 0, 3, 0, 0, 0, 0, 0, 0, 0, 0].getD (0 * 20 + 3) 0) = 1 := by
    decide
  have e2 : be32 ([0, 0, 0, 1, 0, 0, 0, 2, 0, 0, 0, 3, 0, 0, 0, 0, 0, 0, 0, 0].getD (0 * 20 + 4) 0)
      ([0, 0, 0, 1, 0, 0, 0, 2, 0, 0, 0, 3, 0, 0, 0, 0, 0, 0, 0, 0].getD (0 * 20 + 5) 0)
      ([0, 0, 0, 1, 0, 0, 0, 2, 0, 0, 0, 3, 0, 0, 0, 0, 0, 0, 0, 0].getD (0 * 20 + 6) 0)
      ([0, 0, 0, 1, 0, 0, 0, 2, 0, 0, 0, 3, 0, 0, 0, 0, 0, 0, 0, 0].getD (0 * 20 + 7) 0) = 2 := by
    decide
  have e3 : be32 ([0, 0, 0, 1, 0, 0, 0, 2, 0, 0, 0, 3, 0, 0, 0, 0, 0, 0, 0, 0].getD (0 * 20 + 8) 0)
      ([0, 0, 0, 1, 0, 0, 0, 2, 0, 0, 0, 3, 0, 0, 0, 0, 0, 0, 0, 0].getD (0 * 20 + 9) 0)
      ([0, 0, 0, 1, 0, 0, 0, 2, 0, 0, 0, 3, 0, 0, 0, 0, 0, 0, 0, 0].getD (0 * 20 + 10) 0)
      ([0, 0, 0, 1, 0, 0, 0, 2, 0, 0, 0, 3, 0, 0, 0, 0, 0, 0, 0, 0].getD (0 * 20 + 11) 0) = 3 := by
    decide
  have e4 : be32 ([0, 0, 0, 1, 0, 0, 0, 2, 0, 0, 0, 3, 0, 0, 0, 0, 0, 0, 0, 0].getD (0 * 20 + 12) 0)
      ([0, 0, 0, 1, 0, 0, 0, 2, 0, 0, 0, 3, 0, 0, 0, 0, 0, 0, 0, 0].getD (0 * 20 + 13) 0)
      ([0, 0, 0, 1, 0, 0, 0, 2, 0, 0, 0, 3, 0, 0, 0, 0, 0, 0, 0, 0].getD (0 * 20 + 14) 0)
      ([0, 0, 0, 1, 0, 0, 0, 2, 0, 0, 0, 3, 0, 0, 0, 0, 0, 0, 0, 0].getD (0 * 20 + 15) 0) = 0 := by
    decide
  have e5 : be32 ([0, 0, 0, 1, 0, 0, 0, 2, 0, 0, 0, 3, 0, 0, 0, 0, 0, 0, 0, 0].getD (0 * 20 + 16) 0)
      ([0, 0, 0, 1, 0, 0, 0, 2, 0, 0, 0, 3, 0, 0, 0, 0, 0, 0, 0, 0].getD (0 * 20 + 17) 0)
      ([0, 0, 0, 1, 0, 0, 0, 2, 0, 0, 0, 3, 0, 0, 0, 0, 0, 0, 0, 0].getD (0 * 20 + 18) 0)
      ([0, 0, 0, 1, 0, 0, 0, 2, 0, 0, 0, 3, 0, 0, 0, 0, 0, 0, 0, 0].getD (0 * 20 + 19) 0) = 0 := by
    decide
  rw [e1, e2, e3, e4, e5, hpt]
  have hf0 : f32val 0 = 0 := by norm_num [f32val]
  rw [hf0]
  have hp0 : pyRound ((0 : ℚ) * (VOLUME_MULTIPLIER : ℚ)) = 0 := by
    norm_num [pyRound]
  rw [hp0]
  norm_num

end Dukascopy
